import Mathlib

/-!
Shallow embedding of the tuitodo repository (task_item.rs, list.rs, file.rs,
main.rs) and proofs about its persistence codec, task-list navigation and
action-driven update function.

Strings are modelled as `List Char` (Rust `str::chars` yields Unicode scalar
values, which `Char` models exactly).  Code that can panic (index out of
range, `usize` subtraction underflow in a debug build) is modelled as an
`Option`-returning function, `none` standing for the fault.
-/

namespace Tuitodo

/-- Task completion state, from `task_item.rs` (the revision of the item type
actually referenced by `file.rs` and `main.rs`: two-argument constructor and a
`state` field). -/
inductive TaskState where
  | Done
  | Open
deriving DecidableEq

/-- A task: completion state plus text, from `task_item.rs`. -/
structure TaskItem where
  state : TaskState
  text : List Char
deriving DecidableEq

/-- `TaskItem::new(text, state)` from `task_item.rs`. -/
def TaskItem.new (text : List Char) (state : TaskState) : TaskItem :=
  ⟨state, text⟩

/-- `TaskItem::toggle_state` from `task_item.rs`: flips Open/Done. -/
def TaskItem.toggle_state (t : TaskItem) : TaskItem :=
  { t with state := match t.state with
                    | TaskState.Open => TaskState.Done
                    | TaskState.Done => TaskState.Open }

/-- The task list with its ratatui `ListState`, from `list.rs`.  Of the
`ListState` only the `selected` index is behaviourally relevant;
`ListState::select` stores the given value unchanged. -/
structure TaskList where
  selected : Option Nat
  items : List TaskItem
deriving DecidableEq

/-- `TaskList::previous` from `list.rs`.  The source computes
`self.items.len() - 1` on `usize` when the selection is `None` or `0`; on an
empty list that subtraction underflows (a panic in a debug build), modelled
here as `none`. -/
def TaskList.previous (t : TaskList) : Option TaskList :=
  match t.selected with
  | some i =>
      if i = 0 then
        if t.items.length = 0 then none
        else some { t with selected := some (t.items.length - 1) }
      else some { t with selected := some (i - 1) }
  | none =>
      if t.items.length = 0 then none
      else some { t with selected := some (t.items.length - 1) }

/-- `TaskList::next` from `list.rs`.  With a selection present the source
compares `i >= self.items.len() - 1`, underflowing on an empty list (`none`
here); with no selection it selects index `0` unconditionally, even when the
list is empty. -/
def TaskList.next (t : TaskList) : Option TaskList :=
  match t.selected with
  | some i =>
      if t.items.length = 0 then none
      else some { t with selected := some (if t.items.length - 1 ≤ i then 0 else i + 1) }
  | none => some { t with selected := some 0 }

/-- Whether the two-character separator `"] "` occurs anywhere in the list,
scanning adjacent pairs left to right. -/
def containsBrSp : List Char → Bool
  | c1 :: c2 :: rest => ((c1 == ']') && (c2 == ' ')) || containsBrSp (c2 :: rest)
  | _ => false

/-- Rust `str::split("] ")` specialised to the separator used by
`load_tasks`: splits at each non-overlapping leftmost occurrence of `"] "`.
Always returns a nonempty list of segments. -/
def splitBrSp : List Char → List (List Char)
  | [] => [[]]
  | [c] => [[c]]
  | c1 :: c2 :: rest =>
      if c1 = ']' ∧ c2 = ' ' then [] :: splitBrSp rest
      else
        match splitBrSp (c2 :: rest) with
        | [] => [[c1]]
        | s :: ss => (c1 :: s) :: ss

/-- One iteration of the `while let Some(line)` loop body of `load_tasks`
(`file.rs`): read the character at index 3 (skip the line if absent), derive
the state (`x` means Done, anything else Open), then take the second segment
of `split("] ")` as the text (skip the line if absent). -/
def decodeLine (line : List Char) : Option TaskItem :=
  match line.get? 3 with
  | none => none
  | some state_char =>
      let state := if state_char = 'x' then TaskState.Done else TaskState.Open
      match (splitBrSp line).get? 1 with
      | none => none
      | some text => some (TaskItem.new text state)

/-- The pure content of `load_tasks` once the file's lines are in hand:
malformed lines contribute nothing. -/
def load_tasks_lines (lines : List (List Char)) : List TaskItem :=
  lines.filterMap decodeLine

/-- `get_state_char` from `file.rs` (returns a one-character string). -/
def get_state_char : TaskState → List Char
  | TaskState.Done => ['x']
  | TaskState.Open => [' ']

/-- One line of `write_tasks`' output: `format!("- [{}] {}", ..)`. -/
def encodeLine (t : TaskItem) : List Char :=
  '-' :: ' ' :: '[' :: (get_state_char t.state ++ ']' :: ' ' :: t.text)

/-- The full file content produced by `write_tasks` (`file.rs`): each line
followed by a single `\n`, truncate-then-write semantics. -/
def write_content (tasks : List TaskItem) : List Char :=
  (tasks.map (fun t => encodeLine t ++ ['\n'])).flatten

/-- Split on `\n` (the raw segments between newline bytes); always returns a
nonempty list, the last segment being the part after the final `\n`. -/
def splitNl : List Char → List (List Char)
  | [] => [[]]
  | c :: rest =>
      if c = '\n' then [] :: splitNl rest
      else
        match splitNl rest with
        | [] => [[c]]
        | s :: ss => (c :: s) :: ss

/-- Remove a single trailing carriage return, as tokio's line reader does
after it has removed the `\n` terminator of a line. -/
def stripCr (l : List Char) : List Char :=
  if l.getLast? = some '\r' then l.dropLast else l

/-- Post-process the raw `\n` segments the way
`tokio::io::AsyncBufReadExt::lines` yields lines: every `\n`-terminated
segment has one trailing `\r` stripped; the final segment is the unterminated
tail of the file, kept verbatim if nonempty and absent if empty. -/
def trimSegs : List (List Char) → List (List Char)
  | [] => []
  | [tail] => if tail = [] then [] else [tail]
  | seg :: rest => stripCr seg :: trimSegs rest

/-- The sequence of lines `load_tasks` iterates over, as a function of the
file content (tokio `BufReader::lines` semantics). -/
def rustLines (s : List Char) : List (List Char) :=
  trimSegs (splitNl s)

/-- `load_tasks` applied to an existing file with the given content. -/
def load_from_content (content : List Char) : List TaskItem :=
  load_tasks_lines (rustLines content)

/-- `load_tasks` from `file.rs` over a file system modelled as a partial map
from paths to contents: a missing file (`fs::metadata` fails) is not an
error, it yields the empty list. -/
def load_tasks (fsys : List Char → Option (List Char)) (path : List Char) :
    Except (List Char) (List TaskItem) :=
  match fsys path with
  | none => Except.ok []
  | some content => Except.ok (load_from_content content)

/-- `Mode` from `main.rs` (the two-state variant actually in the source). -/
inductive Mode where
  | Normal
  | Input
deriving DecidableEq

/-- Opaque stand-in for a raw `crossterm::event::Event` payload forwarded to
the text sub-editor; its identity is all the update function depends on. -/
abbrev CrossEvent := Nat

/-- The `tui_input::Input` buffer: value plus cursor.  `Input::reset` returns
it to the default (empty value, cursor 0). -/
structure InputBuf where
  value : List Char
  cursor : Nat
deriving DecidableEq

/-- The key codes `get_action` distinguishes; every other crossterm key code
falls under `OtherKey` and is handled by the catch-all arms. -/
inductive KeyCode where
  | Char (c : Char)
  | Enter
  | Esc
  | OtherKey
deriving DecidableEq

/-- Modelled from the spec: the repository's `tui.rs` (the event source
multiplexer defining `tui::Event`) is not under `src/`; the spec describes it
as merging tick, render and user-input producers into one event stream.  Only
the variants `get_action` matches on are distinguished; the remaining
variants (quit, resize, ...) all hit its catch-all arm and are represented by
`Quit` and `Closed`. -/
inductive Event where
  | Error
  | Tick
  | Render
  | Key (code : KeyCode) (raw : CrossEvent)
  | Quit
  | Closed
deriving DecidableEq

/-- The `Action` enum from `main.rs`. -/
inductive Action where
  | Tick
  | Increment
  | Decrement
  | NetworkRequestAndThenIncrement
  | NetworkRequestAndThenDecrement
  | Quit
  | Render
  | None
  | NextTask
  | PreviousTask
  | EnterInsertMode
  | ToggleTaskState
  | HandleInputKey (e : CrossEvent)
  | AddTask
  | ClearNewTask
deriving DecidableEq

/-- The `App` state from `main.rs` (the action sender is part of the loop
plumbing, not of the state the update function reads). -/
structure App where
  file_path : List Char
  counter : Int
  should_quit : Bool
  mode : Mode
  new_task : InputBuf
  tasks : TaskList
deriving DecidableEq

/-- Result of one application of `update`: the new app state, the returned
follow-up action, the snapshots handed to spawned `write_tasks` calls, and
the actions the spawned network stand-ins will later re-inject. -/
structure Step where
  app : App
  next : Option Action
  writes : List (List TaskItem)
  delayed : List Action
deriving DecidableEq

/-- `get_action` from `main.rs`: pure key-to-action resolution from the
current mode. -/
def get_action (app : App) (ev : Event) : Action :=
  match ev with
  | Event.Error => Action.None
  | Event.Tick => Action.Tick
  | Event.Render => Action.Render
  | Event.Key key e =>
      match app.mode with
      | Mode.Normal =>
          match key with
          | KeyCode.Char 'j' => Action.NextTask
          | KeyCode.Char 'k' => Action.PreviousTask
          | KeyCode.Enter => Action.EnterInsertMode
          | KeyCode.Char ' ' => Action.ToggleTaskState
          | KeyCode.Char 'q' => Action.Quit
          | _ => Action.None
      | Mode.Input =>
          match key with
          | KeyCode.Esc => Action.ClearNewTask
          | KeyCode.Enter => Action.AddTask
          | _ => Action.HandleInputKey e
  | _ => Action.None

/-- `update` from `main.rs`, parameterised by the behaviour `he` of the
external `tui_input` event handler.  `none` models a panic: list indexing out
of range in the `ToggleTaskState` arm, `usize` underflow inside
`TaskList::next`/`previous`.  Every arm of the source ends in `None`, so the
returned follow-up action is always `none`. -/
def update (he : CrossEvent → InputBuf → InputBuf) (app : App) (action : Action) :
    Option Step :=
  match action with
  | Action.Increment => some ⟨{ app with counter := app.counter + 1 }, none, [], []⟩
  | Action.Decrement => some ⟨{ app with counter := app.counter - 1 }, none, [], []⟩
  | Action.NetworkRequestAndThenIncrement => some ⟨app, none, [], [Action.Increment]⟩
  | Action.NetworkRequestAndThenDecrement => some ⟨app, none, [], [Action.Decrement]⟩
  | Action.NextTask =>
      (TaskList.next app.tasks).map (fun t => ⟨{ app with tasks := t }, none, [], []⟩)
  | Action.PreviousTask =>
      (TaskList.previous app.tasks).map (fun t => ⟨{ app with tasks := t }, none, [], []⟩)
  | Action.EnterInsertMode => some ⟨{ app with mode := Mode.Input }, none, [], []⟩
  | Action.ClearNewTask =>
      some ⟨{ app with new_task := ⟨[], 0⟩, mode := Mode.Normal }, none, [], []⟩
  | Action.AddTask =>
      some ⟨{ app with
                tasks := ⟨app.tasks.selected,
                          app.tasks.items ++ [TaskItem.new app.new_task.value TaskState.Open]⟩,
                new_task := ⟨[], 0⟩ },
            none,
            [app.tasks.items ++ [TaskItem.new app.new_task.value TaskState.Open]],
            []⟩
  | Action.HandleInputKey e => some ⟨{ app with new_task := he e app.new_task }, none, [], []⟩
  | Action.ToggleTaskState =>
      match app.tasks.selected with
      | some index =>
          match app.tasks.items.get? index with
          | none => none
          | some item =>
              some ⟨{ app with tasks := ⟨some index, app.tasks.items.set index item.toggle_state⟩ },
                    none,
                    [app.tasks.items.set index item.toggle_state],
                    []⟩
      | none => some ⟨app, none, [], []⟩
  | Action.Quit => some ⟨{ app with should_quit := true }, none, [], []⟩
  | _ => some ⟨app, none, [], []⟩

/-- The inner `while let Some(act) = maybe_action` loop of `run` (`main.rs`),
with explicit fuel since the source loop is a priori unbounded: applies
`update`, follows the returned follow-up action, and counts how many times
`update` ran for the one externally sourced action it started from. -/
def drainChain (he : CrossEvent → InputBuf → InputBuf) :
    Nat → App → Option Action → Nat → Option (Nat × App)
  | _, app, none, count => some (count, app)
  | 0, _, some _, _ => none
  | fuel + 1, app, some a, count =>
      match update he app a with
      | none => none
      | some st => drainChain he fuel st.app st.next (count + 1)

/-- `k` successive calls of `TaskList::next`, propagating a panic. -/
def nextTimes : Nat → TaskList → Option TaskList
  | 0, t => some t
  | k + 1, t => (TaskList.next t).bind (nextTimes k)

/-- `k` successive calls of `TaskList::previous`, propagating a panic. -/
def previousTimes : Nat → TaskList → Option TaskList
  | 0, t => some t
  | k + 1, t => (TaskList.previous t).bind (previousTimes k)

/-- A concrete sub-editor event handler used to instantiate witnesses. -/
def heId : CrossEvent → InputBuf → InputBuf := fun _ b => b

/-- Two-step list induction matching the recursion pattern of `splitBrSp` and
`containsBrSp`. -/
theorem twoStepInduction {P : List Char → Prop} (h0 : P []) (h1 : ∀ c, P [c])
    (h2 : ∀ c1 c2 rest, P (c2 :: rest) → P (c1 :: c2 :: rest)) : ∀ l, P l
  | [] => h0
  | [c] => h1 c
  | c1 :: c2 :: rest => h2 c1 c2 rest (twoStepInduction h0 h1 h2 (c2 :: rest))

theorem containsBrSp_cons_false {c1 c2 : Char} {rest : List Char}
    (h : containsBrSp (c1 :: c2 :: rest) = false) :
    ¬(c1 = ']' ∧ c2 = ' ') ∧ containsBrSp (c2 :: rest) = false := by
  simp only [containsBrSp, Bool.or_eq_false_iff, Bool.and_eq_false_iff,
    beq_eq_false_iff_ne, ne_eq] at h
  refine ⟨fun hc => ?_, h.2⟩
  rcases h.1 with h1 | h1
  · exact h1 hc.1
  · exact h1 hc.2

/-- A list without the `"] "` separator is a single split segment. -/
theorem splitBrSp_no_sep : ∀ l : List Char, containsBrSp l = false → splitBrSp l = [l] := by
  refine twoStepInduction ?_ ?_ ?_
  · intro _; rfl
  · intro c _; rfl
  · intro c1 c2 rest ih h
    obtain ⟨hne, htail⟩ := containsBrSp_cons_false h
    simp only [splitBrSp]
    rw [if_neg hne, ih htail]

theorem splitBrSp_sep_head (b : List Char) : splitBrSp (']' :: ' ' :: b) = [] :: splitBrSp b := by
  simp [splitBrSp]

/-- Splitting a list whose first `"] "` occurrence sits right after a
separator-free block `a` yields `a` as the first segment. -/
theorem splitBrSp_append (b : List Char) :
    ∀ a : List Char, containsBrSp a = false →
      splitBrSp (a ++ ']' :: ' ' :: b) = a :: splitBrSp b := by
  refine twoStepInduction ?_ ?_ ?_
  · intro _
    simpa using splitBrSp_sep_head b
  · intro c _
    show splitBrSp (c :: ']' :: ' ' :: b) = [c] :: splitBrSp b
    simp [splitBrSp]
  · intro c1 c2 rest ih h
    obtain ⟨hne, htail⟩ := containsBrSp_cons_false h
    show splitBrSp (c1 :: c2 :: (rest ++ ']' :: ' ' :: b)) = (c1 :: c2 :: rest) :: splitBrSp b
    simp only [splitBrSp]
    rw [if_neg hne]
    have := ih htail
    simp only [List.cons_append] at this
    rw [this]

/-- Decoding inverts encoding for a task whose text has no `"] "`. -/
theorem decodeLine_encodeLine {t : TaskItem} (h : containsBrSp t.text = false) :
    decodeLine (encodeLine t) = some t := by
  obtain ⟨state, text⟩ := t
  cases state
  · have hs : splitBrSp (['-', ' ', '[', 'x'] ++ ']' :: ' ' :: text) =
        ['-', ' ', '[', 'x'] :: splitBrSp text := splitBrSp_append text _ (by decide)
    rw [splitBrSp_no_sep text h] at hs
    simp only [encodeLine, get_state_char, decodeLine]
    simp only [List.cons_append, List.nil_append] at hs ⊢
    rw [hs]
    rfl
  · have hs : splitBrSp (['-', ' ', '[', ' '] ++ ']' :: ' ' :: text) =
        ['-', ' ', '[', ' '] :: splitBrSp text := splitBrSp_append text _ (by decide)
    rw [splitBrSp_no_sep text h] at hs
    simp only [encodeLine, get_state_char, decodeLine]
    simp only [List.cons_append, List.nil_append] at hs ⊢
    rw [hs]
    rfl

/-- Splitting on `\n` peels off a newline-free block before the first `\n`. -/
theorem splitNl_append (rest : List Char) :
    ∀ l : List Char, '\n' ∉ l → splitNl (l ++ '\n' :: rest) = l :: splitNl rest := by
  intro l
  induction l with
  | nil =>
      intro _
      show splitNl ('\n' :: rest) = [] :: splitNl rest
      simp [splitNl]
  | cons c l ih =>
      intro h
      have hc : ¬c = '\n' := fun hcc => h (hcc ▸ List.mem_cons_self c l)
      have hl : '\n' ∉ l := fun hm => h (List.mem_cons_of_mem c hm)
      show splitNl (c :: (l ++ '\n' :: rest)) = (c :: l) :: splitNl rest
      simp only [splitNl]
      rw [if_neg hc, ih hl]

/-- The newline character does not occur in an encoded line whose text is
newline-free. -/
theorem nl_not_mem_encodeLine {t : TaskItem} (h : '\n' ∉ t.text) : '\n' ∉ encodeLine t := by
  intro hm
  obtain ⟨state, text⟩ := t
  cases state <;>
    simp only [encodeLine, get_state_char, List.cons_append, List.nil_append,
      List.mem_cons] at hm <;>
    rcases hm with h1 | h1 | h1 | h1 | h1 | h1 | h1 <;>
    first
      | exact absurd h1 (by decide)
      | exact h h1

/-- The raw `\n` segments of a written file: one segment per task plus the
empty tail after the final newline. -/
theorem splitNl_write_content :
    ∀ tasks : List TaskItem, (∀ t ∈ tasks, '\n' ∉ t.text) →
      splitNl (write_content tasks) = tasks.map encodeLine ++ [[]] := by
  intro tasks
  induction tasks with
  | nil => intro _; rfl
  | cons t ts ih =>
      intro h
      have h1 : '\n' ∉ encodeLine t := nl_not_mem_encodeLine (h t (List.mem_cons_self t ts))
      have hw : write_content (t :: ts) = encodeLine t ++ '\n' :: write_content ts := by
        simp [write_content, List.append_assoc]
      rw [hw, splitNl_append (write_content ts) (encodeLine t) h1,
        ih (fun u hu => h u (List.mem_cons_of_mem t hu))]
      rfl

/-- Trimming the segments of a newline-terminated file strips one trailing
carriage return from every line. -/
theorem trimSegs_concat_nil :
    ∀ segs : List (List Char), trimSegs (segs ++ [[]]) = segs.map stripCr := by
  intro segs
  induction segs with
  | nil => rfl
  | cons x xs ih =>
      cases xs with
      | nil => simp [trimSegs]
      | cons y ys =>
          show trimSegs (x :: ((y :: ys) ++ [[]])) = stripCr x :: (y :: ys).map stripCr
          rw [← ih]
          rfl

/-- An encoded line never ends in a carriage return when its text does not. -/
theorem stripCr_encodeLine {t : TaskItem} (h : t.text.getLast? ≠ some '\r') :
    stripCr (encodeLine t) = encodeLine t := by
  rw [stripCr, if_neg]
  cases ht : t.text with
  | nil =>
      obtain ⟨state, text⟩ := t
      simp only at ht
      subst ht
      cases state <;> decide
  | cons c cs =>
      obtain ⟨state, text⟩ := t
      simp only at ht
      subst ht
      cases state <;>
        simp only [encodeLine, get_state_char, List.cons_append, List.nil_append,
          List.getLast?_cons_cons] <;>
        simpa using h

/-- Decoding the stripped encoded lines recovers the task list when every
text is free of the separator and does not end in a carriage return. -/
theorem filterMap_decode_encode :
    ∀ tasks : List TaskItem,
      (∀ t ∈ tasks, containsBrSp t.text = false ∧ t.text.getLast? ≠ some '\r') →
      List.filterMap decodeLine ((tasks.map encodeLine).map stripCr) = tasks := by
  intro tasks
  induction tasks with
  | nil => intro _; rfl
  | cons t ts ih =>
      intro h
      obtain ⟨hsep, hcr⟩ := h t (List.mem_cons_self t ts)
      show List.filterMap decodeLine
          (stripCr (encodeLine t) :: (ts.map encodeLine).map stripCr) = t :: ts
      rw [stripCr_encodeLine hcr, List.filterMap_cons, decodeLine_encodeLine hsep,
        ih (fun u hu => h u (List.mem_cons_of_mem t hu))]

/-- On a nonempty list with an in-bounds selection, `next` advances by one
modulo the length. -/
theorem next_valid {items : List TaskItem} {i : Nat} (h0 : 0 < items.length)
    (hi : i < items.length) :
    TaskList.next ⟨some i, items⟩ = some ⟨some ((i + 1) % items.length), items⟩ := by
  simp only [TaskList.next]
  rw [if_neg (by omega)]
  by_cases hc : items.length - 1 ≤ i
  · rw [if_pos hc]
    have he : i + 1 = items.length := by omega
    rw [he, Nat.mod_self]
  · rw [if_neg hc, Nat.mod_eq_of_lt (by omega)]

/-- On a nonempty list with an in-bounds selection, `previous` steps back by
one modulo the length. -/
theorem previous_valid {items : List TaskItem} {i : Nat} (h0 : 0 < items.length)
    (hi : i < items.length) :
    TaskList.previous ⟨some i, items⟩ =
      some ⟨some ((i + (items.length - 1)) % items.length), items⟩ := by
  simp only [TaskList.previous]
  by_cases hz : i = 0
  · rw [if_pos hz, if_neg (by omega), hz, Nat.zero_add, Nat.mod_eq_of_lt (by omega)]
  · rw [if_neg hz]
    have he : i + (items.length - 1) = (i - 1) + items.length := by omega
    rw [he, Nat.add_mod_right, Nat.mod_eq_of_lt (by omega)]

theorem nextTimes_valid {items : List TaskItem} (h0 : 0 < items.length) :
    ∀ (k : Nat) (i : Nat), i < items.length →
      nextTimes k ⟨some i, items⟩ = some ⟨some ((i + k) % items.length), items⟩ := by
  intro k
  induction k with
  | zero =>
      intro i hi
      simp [nextTimes, Nat.mod_eq_of_lt hi]
  | succ k ih =>
      intro i hi
      show (TaskList.next ⟨some i, items⟩).bind (nextTimes k) = _
      rw [next_valid h0 hi, Option.some_bind, ih ((i + 1) % items.length) (Nat.mod_lt _ h0)]
      have he : ((i + 1) % items.length + k) % items.length =
          (i + (k + 1)) % items.length := by
        rw [Nat.mod_add_mod]
        congr 1
        omega
      rw [he]

theorem previousTimes_valid {items : List TaskItem} (h0 : 0 < items.length) :
    ∀ (k : Nat) (i : Nat), i < items.length →
      previousTimes k ⟨some i, items⟩ =
        some ⟨some ((i + k * (items.length - 1)) % items.length), items⟩ := by
  intro k
  induction k with
  | zero =>
      intro i hi
      simp [previousTimes, Nat.mod_eq_of_lt hi]
  | succ k ih =>
      intro i hi
      show (TaskList.previous ⟨some i, items⟩).bind (previousTimes k) = _
      rw [previous_valid h0 hi, Option.some_bind,
        ih ((i + (items.length - 1)) % items.length) (Nat.mod_lt _ h0)]
      have he : ((i + (items.length - 1)) % items.length + k * (items.length - 1)) %
          items.length = (i + (k + 1) * (items.length - 1)) % items.length := by
        rw [Nat.mod_add_mod]
        congr 1
        rw [Nat.succ_mul]
        omega
      rw [he]

/-- Claim C1, counterexample: a task whose text is a single carriage return
contains no newline and no `"] "` sequence, yet does not round-trip: the
written file ends in the CRLF sequence and tokio's line reader strips the
`\r` together with the `\n`, so decoding yields a task with empty text. -/
theorem c1_roundtrip_counterexample :
    ('\n' ∉ (['\r'] : List Char) ∧ containsBrSp ['\r'] = false) ∧
      load_from_content (write_content [⟨TaskState.Open, ['\r']⟩]) ≠
        [⟨TaskState.Open, ['\r']⟩] := by
  decide

/-- Claim C1, amended: decoding the encoded file recovers the task list,
preserving order, text and Open/Done state, for every task list whose texts
contain no newline, contain no `"] "` sequence, and do not end in a carriage
return. -/
theorem c1_roundtrip_amended (tasks : List TaskItem)
    (h : ∀ t ∈ tasks, '\n' ∉ t.text ∧ containsBrSp t.text = false ∧
      t.text.getLast? ≠ some '\r') :
    load_from_content (write_content tasks) = tasks := by
  show load_tasks_lines (trimSegs (splitNl (write_content tasks))) = tasks
  rw [splitNl_write_content tasks (fun t ht => (h t ht).1), trimSegs_concat_nil]
  exact filterMap_decode_encode tasks (fun t ht => ⟨(h t ht).2.1, (h t ht).2.2⟩)

/-- Witness for C1's amended theorem: the spec's concrete scenario A list
round-trips. -/
theorem c1_roundtrip_amended_witness :
    load_from_content (write_content
        [⟨TaskState.Open, ['b', 'u', 'y', ' ', 'm', 'i', 'l', 'k']⟩,
         ⟨TaskState.Done, ['c', 'a', 'l', 'l', ' ', 'm', 'o', 'm']⟩]) =
      [⟨TaskState.Open, ['b', 'u', 'y', ' ', 'm', 'i', 'l', 'k']⟩,
       ⟨TaskState.Done, ['c', 'a', 'l', 'l', ' ', 'm', 'o', 'm']⟩] :=
  c1_roundtrip_amended _ (by decide)

/-- Claim C4, counterexample: on the line `- [ ] a] b`, which contains the
`"] "` separator, the decoded text is `a` — the segment up to the next
`"] "` — not everything after the first `"] "` (which would be `a] b`). -/
theorem c4_decode_text_counterexample :
    decodeLine ['-', ' ', '[', ' ', ']', ' ', 'a', ']', ' ', 'b'] =
        some ⟨TaskState.Open, ['a']⟩ ∧
      decodeLine ['-', ' ', '[', ' ', ']', ' ', 'a', ']', ' ', 'b'] ≠
        some ⟨TaskState.Open, ['a', ']', ' ', 'b']⟩ := by
  decide

/-- Claim C4, amended: for a line of at least 4 characters whose first
`"] "` occurrence ends at position `a.length + 2`, the decoded text is
everything after that separator when the remainder contains no further
`"] "`, and is truncated at the next `"] "` occurrence otherwise. -/
theorem c4_decode_text_amended :
    (∀ a c : List Char, containsBrSp a = false → containsBrSp c = false →
        4 ≤ (a ++ ']' :: ' ' :: c).length →
        Option.map TaskItem.text (decodeLine (a ++ ']' :: ' ' :: c)) = some c) ∧
      (∀ a c d : List Char, containsBrSp a = false → containsBrSp c = false →
        Option.map TaskItem.text
            (decodeLine (a ++ ']' :: ' ' :: (c ++ ']' :: ' ' :: d))) = some c) := by
  constructor
  · intro a c ha hc hlen
    have h3 : 3 < (a ++ ']' :: ' ' :: c).length := by
      simp only [List.length_append, List.length_cons] at hlen ⊢
      omega
    obtain ⟨ch, hch⟩ : ∃ ch, (a ++ ']' :: ' ' :: c).get? 3 = some ch :=
      ⟨_, List.get?_eq_get h3⟩
    have hs : splitBrSp (a ++ ']' :: ' ' :: c) = a :: [c] := by
      rw [splitBrSp_append c a ha, splitBrSp_no_sep c hc]
    simp only [decodeLine, hch, hs, List.get?_cons_succ, List.get?_cons_zero,
      Option.map_some']
    rfl
  · intro a c d ha hc
    have h3 : 3 < (a ++ ']' :: ' ' :: (c ++ ']' :: ' ' :: d)).length := by
      simp only [List.length_append, List.length_cons]
      omega
    obtain ⟨ch, hch⟩ :
        ∃ ch, (a ++ ']' :: ' ' :: (c ++ ']' :: ' ' :: d)).get? 3 = some ch :=
      ⟨_, List.get?_eq_get h3⟩
    have hs : splitBrSp (a ++ ']' :: ' ' :: (c ++ ']' :: ' ' :: d)) =
        a :: c :: splitBrSp d := by
      rw [splitBrSp_append (c ++ ']' :: ' ' :: d) a ha, splitBrSp_append d c hc]
    simp only [decodeLine, hch, hs, List.get?_cons_succ, List.get?_cons_zero,
      Option.map_some']
    rfl

/-- Witness for C4's amended theorem at the lines `- [ ] a` and
`- [ ] a] b`. -/
theorem c4_decode_text_amended_witness :
    Option.map TaskItem.text
        (decodeLine (['-', ' ', '[', ' '] ++ ']' :: ' ' :: ['a'])) = some ['a'] ∧
      Option.map TaskItem.text
        (decodeLine (['-', ' ', '[', ' '] ++ ']' :: ' ' :: (['a'] ++ ']' :: ' ' :: ['b']))) =
        some ['a'] :=
  ⟨c4_decode_text_amended.1 ['-', ' ', '[', ' '] ['a'] (by decide) (by decide) (by decide),
   c4_decode_text_amended.2 ['-', ' ', '[', ' '] ['a'] ['b'] (by decide) (by decide)⟩

/-- Claim C5: a line with fewer than 4 characters, or with no `"] "`
separator, decodes to nothing, and removing such a line from the input
leaves the decoded list unchanged — decoding degrades per line and never
fails as a whole. -/
theorem c5_line_degradation :
    (∀ line : List Char, line.length < 4 ∨ containsBrSp line = false →
        decodeLine line = none) ∧
      (∀ (pre post : List (List Char)) (line : List Char),
        line.length < 4 ∨ containsBrSp line = false →
        load_tasks_lines (pre ++ line :: post) = load_tasks_lines (pre ++ post)) := by
  have h1 : ∀ line : List Char, line.length < 4 ∨ containsBrSp line = false →
      decodeLine line = none := by
    intro line h
    rcases h with h | h
    · have hn : line.get? 3 = none := List.get?_eq_none.mpr (by omega)
      simp only [decodeLine, hn]
    · cases h3 : line.get? 3 with
      | none => simp only [decodeLine, h3]
      | some ch =>
          simp only [decodeLine, h3, splitBrSp_no_sep line h, List.get?_cons_succ,
            List.get?_nil]
  refine ⟨h1, ?_⟩
  intro pre post line h
  simp [load_tasks_lines, List.filterMap_append, List.filterMap_cons, h1 line h]

/-- Witness for C5: the spec's malformed line `garbage` is skipped. -/
theorem c5_line_degradation_witness :
    decodeLine ['g', 'a', 'r', 'b', 'a', 'g', 'e'] = none ∧
      load_tasks_lines
          [['-', ' ', '[', ' ', ']', ' ', 'a'], ['g', 'a', 'r', 'b', 'a', 'g', 'e']] =
        load_tasks_lines [['-', ' ', '[', ' ', ']', ' ', 'a']] := by
  refine ⟨c5_line_degradation.1 _ (Or.inr (by decide)), ?_⟩
  have h := c5_line_degradation.2 [['-', ' ', '[', ' ', ']', ' ', 'a']] []
    ['g', 'a', 'r', 'b', 'a', 'g', 'e'] (Or.inr (by decide))
  simpa using h

/-- Claim C6: when the backing file does not exist, `load_tasks` succeeds
with the empty task list instead of an error. -/
theorem c6_missing_file (fsys : List Char → Option (List Char)) (path : List Char)
    (h : fsys path = none) : load_tasks fsys path = Except.ok [] := by
  simp [load_tasks, h]

/-- Witness for C6 on an empty file system. -/
theorem c6_missing_file_witness :
    load_tasks (fun _ => none) ['t', 'o', 'd', 'o'] = Except.ok [] :=
  c6_missing_file (fun _ => none) ['t', 'o', 'd', 'o'] rfl

/-- Claim C7: on a list of length `n > 0`, from any in-bounds selection,
`n` calls of `next` return to the starting selection, as do `n` calls of
`previous`; in particular on a list of 3 tasks with selection 0 a single
`previous` wraps to selection 2. -/
theorem c7_wrap (items : List TaskItem) (i : Nat) (h0 : 0 < items.length)
    (hi : i < items.length) :
    (nextTimes items.length ⟨some i, items⟩ = some ⟨some i, items⟩ ∧
      previousTimes items.length ⟨some i, items⟩ = some ⟨some i, items⟩) ∧
      (items.length = 3 →
        TaskList.previous ⟨some 0, items⟩ = some ⟨some 2, items⟩) := by
  refine ⟨⟨?_, ?_⟩, ?_⟩
  · rw [nextTimes_valid h0 items.length i hi, Nat.add_mod_right,
      Nat.mod_eq_of_lt hi]
  · rw [previousTimes_valid h0 items.length i hi]
    have he : (i + items.length * (items.length - 1)) % items.length = i := by
      rw [Nat.mul_comm, Nat.add_mul_mod_self_right, Nat.mod_eq_of_lt hi]
    rw [he]
  · intro h3
    rw [previous_valid h0 (by omega), Nat.zero_add, h3]

/-- Witness for C7 on the spec's 3-task scenario with selection 0. -/
theorem c7_wrap_witness :
    (nextTimes 3 ⟨some 0, [⟨TaskState.Open, ['a']⟩, ⟨TaskState.Open, ['b']⟩,
          ⟨TaskState.Open, ['c']⟩]⟩ =
        some ⟨some 0, [⟨TaskState.Open, ['a']⟩, ⟨TaskState.Open, ['b']⟩,
          ⟨TaskState.Open, ['c']⟩]⟩ ∧
      previousTimes 3 ⟨some 0, [⟨TaskState.Open, ['a']⟩, ⟨TaskState.Open, ['b']⟩,
          ⟨TaskState.Open, ['c']⟩]⟩ =
        some ⟨some 0, [⟨TaskState.Open, ['a']⟩, ⟨TaskState.Open, ['b']⟩,
          ⟨TaskState.Open, ['c']⟩]⟩) ∧
      TaskList.previous ⟨some 0, [⟨TaskState.Open, ['a']⟩, ⟨TaskState.Open, ['b']⟩,
          ⟨TaskState.Open, ['c']⟩]⟩ =
        some ⟨some 2, [⟨TaskState.Open, ['a']⟩, ⟨TaskState.Open, ['b']⟩,
          ⟨TaskState.Open, ['c']⟩]⟩ := by
  have h := c7_wrap [⟨TaskState.Open, ['a']⟩, ⟨TaskState.Open, ['b']⟩,
    ⟨TaskState.Open, ['c']⟩] 0 (by decide) (by decide)
  exact ⟨h.1, h.2 rfl⟩

/-- Claim C2, counterexample: in Input (Create) mode with buffer
`new task`, the `AddTask` arm of `update` never assigns `app.mode`, so the
mode after submit is not `Normal` (it stays `Input`). -/
theorem c2_submit_counterexample :
    ¬Option.map (fun st : Step => st.app.mode)
        (update heId
          ⟨[], 0, false, Mode.Input, ⟨['n', 'e', 'w', ' ', 't', 'a', 's', 'k'], 8⟩,
            ⟨none, []⟩⟩
          Action.AddTask) = some Mode.Normal := by
  decide

/-- Claim C2, amended: in Input mode, `AddTask` appends a task built from
the buffer value with state Open to the end of the list, clears the
sub-editor buffer, and spawns one persistence write of the new list — but
the mode is left unchanged (it stays Input) rather than returning to
Normal. -/
theorem c2_submit_amended (he : CrossEvent → InputBuf → InputBuf) (app : App)
    (hm : app.mode = Mode.Input) :
    update he app Action.AddTask =
        some ⟨{ app with
                  tasks := ⟨app.tasks.selected,
                            app.tasks.items ++
                              [TaskItem.new app.new_task.value TaskState.Open]⟩,
                  new_task := ⟨[], 0⟩ },
              none,
              [app.tasks.items ++ [TaskItem.new app.new_task.value TaskState.Open]],
              []⟩ ∧
      ∀ st : Step, update he app Action.AddTask = some st → st.app.mode = Mode.Input := by
  refine ⟨rfl, ?_⟩
  intro st h
  obtain rfl := Option.some.inj h
  exact hm

/-- Witness for C2's amended theorem on the spec's concrete scenario D
state. -/
theorem c2_submit_amended_witness :
    update heId
        ⟨[], 0, false, Mode.Input, ⟨['n', 'e', 'w', ' ', 't', 'a', 's', 'k'], 8⟩,
          ⟨none, []⟩⟩
        Action.AddTask =
      some ⟨⟨[], 0, false, Mode.Input, ⟨[], 0⟩,
              ⟨none, [⟨TaskState.Open, ['n', 'e', 'w', ' ', 't', 'a', 's', 'k']⟩]⟩⟩,
            none,
            [[⟨TaskState.Open, ['n', 'e', 'w', ' ', 't', 'a', 's', 'k']⟩]],
            []⟩ :=
  (c2_submit_amended heId
    ⟨[], 0, false, Mode.Input, ⟨['n', 'e', 'w', ' ', 't', 'a', 's', 'k'], 8⟩,
      ⟨none, []⟩⟩ rfl).1

/-- Claim C8, counterexample: with a selection present but out of bounds
(selected index 0 on an empty list), `ToggleTaskState` indexes
`items[index]` out of range and faults (panics) instead of being a quiet
no-op. -/
theorem c8_toggle_counterexample :
    update heId ⟨[], 0, false, Mode.Normal, ⟨[], 0⟩, ⟨some 0, []⟩⟩
      Action.ToggleTaskState = none := by
  decide

/-- Claim C8, amended: with no selection, `ToggleTaskState` is a guarded
no-op — state unchanged, no fault, no persistence write spawned; with a
selection whose index is out of bounds it faults with an index error
without mutating any task. -/
theorem c8_toggle_amended :
    (∀ (he : CrossEvent → InputBuf → InputBuf) (app : App),
        app.tasks.selected = none →
        update he app Action.ToggleTaskState = some ⟨app, none, [], []⟩) ∧
      (∀ (he : CrossEvent → InputBuf → InputBuf) (app : App) (i : Nat),
        app.tasks.selected = some i → app.tasks.items.length ≤ i →
        update he app Action.ToggleTaskState = none) := by
  constructor
  · intro he app h
    simp only [update, h]
  · intro he app i h hlen
    have hg : app.tasks.items.get? i = none := List.get?_eq_none.mpr hlen
    simp only [update, h, hg]

/-- Witness for C8's amended theorem: a no-selection no-op and an
out-of-bounds fault at index 5 of a one-task list. -/
theorem c8_toggle_amended_witness :
    update heId ⟨[], 0, false, Mode.Normal, ⟨[], 0⟩, ⟨none, [⟨TaskState.Open, ['a']⟩]⟩⟩
        Action.ToggleTaskState =
      some ⟨⟨[], 0, false, Mode.Normal, ⟨[], 0⟩, ⟨none, [⟨TaskState.Open, ['a']⟩]⟩⟩,
            none, [], []⟩ ∧
      update heId ⟨[], 0, false, Mode.Normal, ⟨[], 0⟩, ⟨some 5, [⟨TaskState.Open, ['a']⟩]⟩⟩
        Action.ToggleTaskState = none :=
  ⟨c8_toggle_amended.1 heId _ rfl, c8_toggle_amended.2 heId _ 5 rfl (by decide)⟩

/-- Claim C9: in Input mode the Esc key resolves to `ClearNewTask`, and the
`ClearNewTask` arm of `update` returns the mode to Normal and clears the
sub-editor buffer while leaving the task list — length, every text and
state — untouched (no write is spawned either). -/
theorem c9_cancel (he : CrossEvent → InputBuf → InputBuf) (app : App) (e : CrossEvent)
    (hm : app.mode = Mode.Input) :
    get_action app (Event.Key KeyCode.Esc e) = Action.ClearNewTask ∧
      update he app Action.ClearNewTask =
        some ⟨{ app with new_task := ⟨[], 0⟩, mode := Mode.Normal }, none, [], []⟩ := by
  constructor
  · show (match app.mode with
      | Mode.Normal => Action.None
      | Mode.Input => Action.ClearNewTask) = Action.ClearNewTask
    rw [hm]
  · rfl

/-- Witness for C9 in a concrete Input-mode state with a nonempty buffer
and a nonempty task list. -/
theorem c9_cancel_witness :
    get_action ⟨[], 0, false, Mode.Input, ⟨['h', 'i'], 2⟩,
        ⟨some 0, [⟨TaskState.Done, ['a']⟩]⟩⟩ (Event.Key KeyCode.Esc 0) =
      Action.ClearNewTask ∧
      update heId ⟨[], 0, false, Mode.Input, ⟨['h', 'i'], 2⟩,
          ⟨some 0, [⟨TaskState.Done, ['a']⟩]⟩⟩ Action.ClearNewTask =
        some ⟨⟨[], 0, false, Mode.Normal, ⟨[], 0⟩, ⟨some 0, [⟨TaskState.Done, ['a']⟩]⟩⟩,
              none, [], []⟩ :=
  c9_cancel heId ⟨[], 0, false, Mode.Input, ⟨['h', 'i'], 2⟩,
    ⟨some 0, [⟨TaskState.Done, ['a']⟩]⟩⟩ 0 rfl

/-- Claim C3, counterexample: dispatching `NextTask` on an empty list with
no selection does not leave the selection `None` — the `None` arm of
`TaskList::next` selects index 0 unconditionally, so the selection becomes
`Some 0` while the list is empty, violating the claimed invariant. -/
theorem c3_selection_counterexample :
    ¬Option.map (fun st : Step => st.app.tasks.selected)
          (update heId ⟨[], 0, false, Mode.Normal, ⟨[], 0⟩, ⟨none, []⟩⟩
            Action.NextTask) = some none ∧
      Option.map (fun st : Step => st.app.tasks.selected)
          (update heId ⟨[], 0, false, Mode.Normal, ⟨[], 0⟩, ⟨none, []⟩⟩
            Action.NextTask) = some (some 0) := by
  constructor
  · decide
  · decide

/-- Claim C3, amended: `NextTask` on an empty list with no selection does
not panic, but it sets the selection to index 0 instead of leaving it
`None`; the invariant that does hold is: whenever the list is nonempty and
the selection is `None` or in bounds, after any successfully applied action
the selection is still `None` or in bounds. -/
theorem c3_selection_amended :
    (∀ (he : CrossEvent → InputBuf → InputBuf) (app : App),
        app.tasks.items = [] → app.tasks.selected = none →
        update he app Action.NextTask =
          some ⟨{ app with tasks := ⟨some 0, app.tasks.items⟩ }, none, [], []⟩) ∧
      (∀ (he : CrossEvent → InputBuf → InputBuf) (app : App) (a : Action) (st : Step),
        0 < app.tasks.items.length →
        (∀ i, app.tasks.selected = some i → i < app.tasks.items.length) →
        update he app a = some st →
        ∀ j, st.app.tasks.selected = some j → j < st.app.tasks.items.length) := by
  constructor
  · intro he app _ h2
    simp only [update, TaskList.next, h2, Option.map_some']
  · intro he app a st hlen hsel hupd j hj
    cases a
    case NextTask =>
      simp only [update] at hupd
      cases hselc : app.tasks.selected with
      | none =>
          have hn : TaskList.next app.tasks =
              some { app.tasks with selected := some 0 } := by
            simp only [TaskList.next, hselc]
          rw [hn, Option.map_some'] at hupd
          obtain rfl := Option.some.inj hupd
          have hj' : some 0 = some j := hj
          obtain rfl := Option.some.inj hj'
          exact hlen
      | some i =>
          have hi := hsel i hselc
          have hn : TaskList.next app.tasks =
              some { app.tasks with
                       selected := some (if app.tasks.items.length - 1 ≤ i then 0
                         else i + 1) } := by
            simp only [TaskList.next, hselc]
            rw [if_neg (by omega)]
          rw [hn, Option.map_some'] at hupd
          obtain rfl := Option.some.inj hupd
          have hj' : some (if app.tasks.items.length - 1 ≤ i then 0 else i + 1) =
              some j := hj
          obtain rfl := Option.some.inj hj'
          show (if app.tasks.items.length - 1 ≤ i then 0 else i + 1) <
            app.tasks.items.length
          by_cases hc : app.tasks.items.length - 1 ≤ i
          · rw [if_pos hc]; exact hlen
          · rw [if_neg hc]; omega
    case PreviousTask =>
      simp only [update] at hupd
      cases hselc : app.tasks.selected with
      | none =>
          have hn : TaskList.previous app.tasks =
              some { app.tasks with selected := some (app.tasks.items.length - 1) } := by
            simp only [TaskList.previous, hselc]
            rw [if_neg (by omega)]
          rw [hn, Option.map_some'] at hupd
          obtain rfl := Option.some.inj hupd
          have hj' : some (app.tasks.items.length - 1) = some j := hj
          obtain rfl := Option.some.inj hj'
          show app.tasks.items.length - 1 < app.tasks.items.length
          omega
      | some i =>
          have hi := hsel i hselc
          by_cases hz : i = 0
          · have hn : TaskList.previous app.tasks =
                some { app.tasks with selected := some (app.tasks.items.length - 1) } := by
              simp only [TaskList.previous, hselc]
              rw [if_pos hz, if_neg (by omega)]
            rw [hn, Option.map_some'] at hupd
            obtain rfl := Option.some.inj hupd
            have hj' : some (app.tasks.items.length - 1) = some j := hj
            obtain rfl := Option.some.inj hj'
            show app.tasks.items.length - 1 < app.tasks.items.length
            omega
          · have hn : TaskList.previous app.tasks =
                some { app.tasks with selected := some (i - 1) } := by
              simp only [TaskList.previous, hselc]
              rw [if_neg hz]
            rw [hn, Option.map_some'] at hupd
            obtain rfl := Option.some.inj hupd
            have hj' : some (i - 1) = some j := hj
            obtain rfl := Option.some.inj hj'
            show i - 1 < app.tasks.items.length
            omega
    case ToggleTaskState =>
      cases hselc : app.tasks.selected with
      | none =>
          simp only [update, hselc] at hupd
          obtain rfl := Option.some.inj hupd
          exact hsel j hj
      | some i =>
          cases hg : app.tasks.items.get? i with
          | none =>
              simp only [update, hselc, hg] at hupd
              exact Option.noConfusion hupd
          | some item =>
              simp only [update, hselc, hg] at hupd
              obtain rfl := Option.some.inj hupd
              have hj' : some i = some j := hj
              obtain rfl := Option.some.inj hj'
              have := hsel i hselc
              simpa [List.length_set] using this
    case AddTask =>
      obtain rfl := Option.some.inj hupd
      have := hsel j hj
      simp only [List.length_append, List.length_cons, List.length_nil]
      omega
    all_goals (obtain rfl := Option.some.inj hupd; exact hsel j hj)

/-- Witness for C3's amended theorem: the empty-list `NextTask` effect at a
concrete state, and bounds preservation for `NextTask` on a one-task list
with selection 0. -/
theorem c3_selection_amended_witness :
    update heId ⟨[], 0, false, Mode.Normal, ⟨[], 0⟩, ⟨none, []⟩⟩ Action.NextTask =
        some ⟨⟨[], 0, false, Mode.Normal, ⟨[], 0⟩, ⟨some 0, []⟩⟩, none, [], []⟩ ∧
      0 < ([⟨TaskState.Open, ['a']⟩] : List TaskItem).length := by
  constructor
  · exact c3_selection_amended.1 heId ⟨[], 0, false, Mode.Normal, ⟨[], 0⟩, ⟨none, []⟩⟩
      rfl rfl
  · exact c3_selection_amended.2 heId
      ⟨[], 0, false, Mode.Normal, ⟨[], 0⟩, ⟨some 0, [⟨TaskState.Open, ['a']⟩]⟩⟩
      Action.NextTask
      ⟨⟨[], 0, false, Mode.Normal, ⟨[], 0⟩, ⟨some 0, [⟨TaskState.Open, ['a']⟩]⟩⟩,
        none, [], []⟩
      (by decide) (fun i hi => by injection hi with hh; subst hh; decide) (by decide) 0 rfl

/-- Claim C10: whenever `update` returns, the follow-up action it hands
back is `None`, so the loop's synchronous chaining applies `update` exactly
once per externally sourced action (for any fuel bound on the drain loop). -/
theorem c10_no_follow_up (he : CrossEvent → InputBuf → InputBuf) (app : App)
    (a : Action) (st : Step) (h : update he app a = some st) :
    st.next = none ∧
      ∀ fuel : Nat, drainChain he (fuel + 1) app (some a) 0 = some (1, st.app) := by
  have hn : st.next = none := by
    cases a
    case NextTask =>
      obtain ⟨t, _, hst⟩ := Option.map_eq_some'.mp h
      subst hst; rfl
    case PreviousTask =>
      obtain ⟨t, _, hst⟩ := Option.map_eq_some'.mp h
      subst hst; rfl
    case ToggleTaskState =>
      cases hselc : app.tasks.selected with
      | none =>
          simp only [update, hselc] at h
          obtain rfl := Option.some.inj h
          rfl
      | some i =>
          cases hg : app.tasks.items.get? i with
          | none =>
              simp only [update, hselc, hg] at h
              exact Option.noConfusion h
          | some item =>
              simp only [update, hselc, hg] at h
              obtain rfl := Option.some.inj h
              rfl
    all_goals (obtain rfl := Option.some.inj h; rfl)
  refine ⟨hn, fun fuel => ?_⟩
  have hdc : ∀ (f : Nat) (b : App) (c : Nat), drainChain he f b none c = some (c, b) := by
    intro f b c
    cases f <;> rfl
  have hstep : drainChain he (fuel + 1) app (some a) 0 =
      drainChain he fuel st.app st.next 1 := by
    simp only [drainChain, h]
  rw [hstep, hn]
  exact hdc fuel st.app 1

/-- Witness for C10: one `Tick` action applied to a concrete state runs
`update` exactly once and yields no follow-up. -/
theorem c10_no_follow_up_witness :
    (⟨⟨[], 0, false, Mode.Normal, ⟨[], 0⟩, ⟨none, []⟩⟩, none, [], []⟩ : Step).next =
        none ∧
      drainChain heId 1 ⟨[], 0, false, Mode.Normal, ⟨[], 0⟩, ⟨none, []⟩⟩
          (some Action.Tick) 0 =
        some (1, ⟨[], 0, false, Mode.Normal, ⟨[], 0⟩, ⟨none, []⟩⟩) := by
  have h := c10_no_follow_up heId ⟨[], 0, false, Mode.Normal, ⟨[], 0⟩, ⟨none, []⟩⟩
    Action.Tick ⟨⟨[], 0, false, Mode.Normal, ⟨[], 0⟩, ⟨none, []⟩⟩, none, [], []⟩ rfl
  exact ⟨h.1, h.2 0⟩

end Tuitodo
